import Mathlib

/-!
# xdbgprxy: the relay engine of `main.go`

A shallow embedding of `chanFromConn` (the stream reader adapter) and
`handleProxy` (the duplex pump) of `main.go`, and the properties of the relay
proved over it.

Modelling conventions.

* A Go `[]byte` value travelling over a channel is an `Option (List Byte)`:
  `none` is the `nil` slice, `some c` a non-nil slice with content `c`.
* A connection is described by what it answers: the results of its successive
  `Read` calls (a finite script; once it is used up the next `Read` blocks for
  ever) and the result of its `Close`.
* The goroutine of `chanFromConn` sends on an unbuffered channel, so the channel
  is the list of events the goroutine sends, in order; the receiver takes them
  from the front.
* The `select` of `handleProxy` is resolved by a schedule: for each iteration,
  which case the runtime picks, and what the forwarding `Write` of that
  iteration returns.
* Calls that touch the outside world (`color.Set`, `fmt.Println`, `fmt.Printf`,
  `Write`, `Close`) are recorded, in order, in a trace.
-/

namespace XdbgPrxy

/-- A byte. -/
abbrev Byte := Fin 256

/-- A Go `error` value, represented by its message. -/
abbrev Err := String

/-- The two ends of a relay session. -/
inductive Side where
  | php
  | ide
  deriving DecidableEq, Repr

/-- The stream on the other end. -/
def Side.opposite : Side → Side
  | .php => .ide
  | .ide => .php

/-- A value received from a `chan []byte`: `none` is `nil`. -/
abbrev Event := Option (List Byte)

/-- Length of the buffer `b := make([]byte, 1024)` of `chanFromConn`. -/
def bufSize : Nat := 1024

/-- The result `(n, err)` of one `conn.Read(b)` on the 1024-byte buffer, with the
`n` bytes it stored at the start of `b`. `Read` never reports more bytes than
the buffer holds. -/
structure ReadResult where
  data : List Byte
  err : Option Err
  fits : data.length ≤ bufSize

/-- The number `n` returned by the read. -/
def ReadResult.n (r : ReadResult) : Nat := r.data.length

/-- A connection, seen from the relay: the results of its successive reads and
the result of closing it. -/
structure Conn where
  reads : List ReadResult
  closeErr : Option Err

/-- The loop of the goroutine of `chanFromConn`, started with buffer `b`: the
events it sends on the channel and the number of reads it completes.

```go
for {
    n, err := conn.Read(b)
    if n > 0 { res := make([]byte, n); copy(res, b[:n]); c <- res }
    if err != nil { c <- nil; break }
}
```
-/
def readLoop : List ReadResult → List Byte → List Event × Nat
  | [], _ => ([], 0)
  | r :: rest, b =>
    let n := r.n
    let b1 := r.data ++ b.drop n
    let sent : List Event := if n > 0 then [some (b1.take n)] else []
    match r.err with
    | some _ => (sent ++ [none], 1)
    | none =>
      let out := readLoop rest b1
      (sent ++ out.1, out.2 + 1)

/-- The buffer `make([]byte, 1024)`: 1024 zero bytes. -/
def freshBuffer : List Byte := List.replicate bufSize 0

/-- The channel returned by `chanFromConn(conn)`: the events its goroutine
sends, in order. -/
def chanFromConn (conn : Conn) : List Event := (readLoop conn.reads freshBuffer).1

/-- Number of reads the goroutine of `chanFromConn(conn)` completes. -/
def readsPerformed (conn : Conn) : Nat := (readLoop conn.reads freshBuffer).2

/-- Colours of `github.com/fatih/color` used by `handleProxy`. -/
inductive Colour where
  | hiGreen
  | hiRed
  | hiBlue
  deriving DecidableEq, Repr

/-- One call of `handleProxy` to the outside world. -/
inductive Effect where
  /-- Call `color.Set(c)` -/
  | colorSet (c : Colour)
  /-- Call `fmt.Println(text)` -/
  | println (text : String)
  /-- Call `fmt.Println(text, color.<C>String(s))` -/
  | printlnColoured (text : String) (c : Colour) (s : List Byte)
  /-- Call `fmt.Printf("> ide: received %d characters\n", n)` -/
  | printfCount (n : Nat)
  /-- Call `fmt.Println(text, err)` -/
  | printlnErr (text : String) (err : Err)
  /-- Call `dst.Write(chunk)`, with the error it returned -/
  | write (dst : Side) (chunk : List Byte) (result : Option Err)
  /-- Call `conn.Close()`, with the error it returned -/
  | close (conn : Side) (result : Option Err)
  deriving DecidableEq, Repr

/-- Go `bytes.Replace(s, []byte{old}, []byte{new}, -1)` for one-byte `old` and
`new`: a copy of `s` in which every `old` is `new`. -/
def bytesReplace (s : List Byte) (old new : Byte) : List Byte :=
  s.map fun c => if c = old then new else c

/-- Go `strings.Trim(s, cutset)` for a cutset of ASCII bytes: `s` without its
leading and trailing bytes that are in `cutset`. -/
def stringsTrim (s : List Byte) (cutset : List Byte) : List Byte :=
  (s.dropWhile fun c => decide (c ∈ cutset)).rdropWhile fun c => decide (c ∈ cutset)

/-- The string `s` that `handleProxy` builds from a chunk `b2` of the IDE:

```go
s := string(bytes.Replace(b2, []byte{0}, []byte{'\n'}, -1))
s = strings.Trim(s, "\n")
```
-/
def logView (b2 : List Byte) : List Byte :=
  stringsTrim (bytesReplace b2 0 10) [10]

/-- One iteration of the `select` loop: the case the runtime picks when it has a
choice, and the error returned by the `Write` of this iteration if it issues
one. -/
structure Step where
  pick : Side
  writeResult : Option Err
  deriving DecidableEq, Repr

/-- The `select` over `phpChan` and `ideChan`: the picked channel is received
from when it has an event to deliver, the other one when only that one has; with
nothing to receive on either the `select` blocks (`none`). The result is the
side received from, the event, and what is left in the two channels. -/
def select (pick : Side) (phpChan ideChan : List Event) :
    Option (Side × Event × List Event × List Event) :=
  match pick, phpChan, ideChan with
  | .php, e :: p, i => some (.php, e, p, i)
  | .php, [], e :: i => some (.ide, e, [], i)
  | .ide, p, e :: i => some (.ide, e, p, i)
  | .ide, e :: p, [] => some (.php, e, p, [])
  | _, [], [] => none

/-- How a run of the `select` loop ends: it returned on the closed event of one
side, it is blocked in `select` with nothing to receive, or it is still running
when the schedule ends. -/
inductive Outcome where
  | returned (closed : Side)
  | blocked
  | running
  deriving DecidableEq, Repr

/-- The state of `handleProxy` at the end of a run. -/
structure Result where
  outcome : Outcome
  trace : List Effect
  phpChan : List Event
  ideChan : List Event
  deriving DecidableEq, Repr

/-- The report printed when a forwarding write fails. -/
def writeReport (text : String) : Option Err → List Effect
  | none => []
  | some err => [.colorSet .hiRed, .printlnErr text err]

/-- The `else` branch of `case b1 := <-phpChan`. -/
def onPhpData (verbose : Bool) (b1 : List Byte) (w : Option Err) : List Effect :=
  (if verbose then Effect.printlnColoured "> ide: " .hiBlue b1
   else Effect.printfCount b1.length)
    :: Effect.write .ide b1 w :: writeReport "! Error writing to PHP: " w

/-- The `else` branch of `case b2 := <-ideChan`. -/
def onIdeData (b2 : List Byte) (w : Option Err) : List Effect :=
  Effect.printlnColoured "> php: " .hiRed (logView b2)
    :: Effect.write .php b2 w :: writeReport "! Error writing to IDE: " w

/-- The branch taken on a `nil` event. -/
def onClosed : Side → List Effect
  | .php => [.colorSet .hiGreen, .println "! PHP connection closed"]
  | .ide => [.colorSet .hiGreen, .println "! IDE connection closed"]

/-- The `for { select { ... } }` loop of `handleProxy`, run along a schedule. -/
def proxyLoop (verbose : Bool) : List Step → List Event → List Event → Result
  | [], phpChan, ideChan => ⟨.running, [], phpChan, ideChan⟩
  | step :: rest, phpChan, ideChan =>
    match select step.pick phpChan ideChan with
    | none => ⟨.blocked, [], phpChan, ideChan⟩
    | some (side, none, p, i) => ⟨.returned side, onClosed side, p, i⟩
    | some (.php, some b1, p, i) =>
      let r := proxyLoop verbose rest p i
      { r with trace := onPhpData verbose b1 step.writeResult ++ r.trace }
    | some (.ide, some b2, p, i) =>
      let r := proxyLoop verbose rest p i
      { r with trace := onIdeData b2 step.writeResult ++ r.trace }

/-- The two deferred closes, in the order they run: `phpConn.Close()` (deferred
last) and then `ideConn.Close()`, each result discarded. -/
def deferredCloses (phpConn ideConn : Conn) : List Effect :=
  [.close .php phpConn.closeErr, .close .ide ideConn.closeErr]

/-- The function `handleProxy(phpConn, ideConn)` with `config.verbose = verbose`,
run along a schedule. The deferred closes run when the loop returns. -/
def handleProxy (verbose : Bool) (phpConn ideConn : Conn) (sched : List Step) : Result :=
  let r := proxyLoop verbose sched (chanFromConn phpConn) (chanFromConn ideConn)
  match r.outcome with
  | .returned _ => { r with trace := r.trace ++ deferredCloses phpConn ideConn }
  | _ => r

/-! ## Vocabulary of the properties -/

/-- The reads a stream's read loop gets to see: those up to and including the
first one that returns an error. -/
def effectiveReads : List ReadResult → List ReadResult
  | [] => []
  | r :: rest =>
    match r.err with
    | some _ => [r]
    | none => r :: effectiveReads rest

/-- The bytes read from a stream before it signals end-of-stream, in the order
they were read. -/
def bytesRead (conn : Conn) : List Byte :=
  ((effectiveReads conn.reads).map fun r => r.data).flatten

/-- The chunks of the data events of an event sequence, in order. -/
def dataChunks (evs : List Event) : List (List Byte) := evs.filterMap id

/-- The data event of one read, stated without the buffer. -/
def sentOf (r : ReadResult) : List Event := if 0 < r.n then [some r.data] else []

/-- The events of a sequence of reads, stated without the buffer. -/
def eventsOf : List ReadResult → List Event
  | [] => []
  | r :: rest =>
    sentOf r ++
      (match r.err with
       | some _ => [none]
       | none => eventsOf rest)

/-- A stream that delivers a burst of 2000 bytes, in reads of 1024 and 976 bytes,
and then fails. -/
def burstConn : Conn where
  reads :=
    [⟨List.replicate 1024 1, none, by rw [List.length_replicate]; decide⟩,
     ⟨List.replicate 976 2, none, by rw [List.length_replicate]; decide⟩,
     ⟨[], some "EOF", by decide⟩]
  closeErr := none

/-- The log view of an IDE chunk as the specification words it: every NUL byte
replaced by a newline and trailing newlines removed, nothing else changed. -/
def trailingTrimView (b2 : List Byte) : List Byte :=
  (b2.map fun c => if c = 0 then 10 else c).rdropWhile fun c => decide (c = 10)

/-- The bytes of `"cmd\x00arg\x00"`. -/
def cmdArg : List Byte := [99, 109, 100, 0, 97, 114, 103, 0]

/-- A stream whose second read returns two bytes together with an error, after a
first read of zero bytes without an error. -/
def lastWordsConn : Conn where
  reads :=
    [⟨[], none, by decide⟩, ⟨[104, 105], some "EOF", by decide⟩, ⟨[1], none, by decide⟩]
  closeErr := none

/-- The `Write` calls of a trace, in order: destination and argument. -/
def writeCalls : List Effect → List (Side × List Byte)
  | [] => []
  | .write dst chunk _ :: rest => (dst, chunk) :: writeCalls rest
  | _ :: rest => writeCalls rest

/-- The chunks written to one stream, in order. -/
def writtenTo (dst : Side) (trace : List Effect) : List (List Byte) :=
  ((writeCalls trace).filter fun c => decide (c.1 = dst)).map fun c => c.2

/-- The `Close` calls of a trace, in order. -/
def closeCalls : List Effect → List Side
  | [] => []
  | .close conn _ :: rest => conn :: closeCalls rest
  | _ :: rest => closeCalls rest

/-- The `Write` calls the specification asks for, given the events the `select`
loop observes (each with the side it came from): one per data event before the
first closed event, to the opposite side, with the chunk as it came. -/
def expectedWrites : List (Side × Event) → List (Side × List Byte)
  | [] => []
  | (_, none) :: _ => []
  | (side, some chunk) :: rest => (side.opposite, chunk) :: expectedWrites rest

/-- The events that one side contributes to an observed sequence. -/
def chanOf (side : Side) : List (Side × Event) → List Event
  | [] => []
  | (s, e) :: rest => if s = side then e :: chanOf side rest else chanOf side rest

/-- The schedule under which the `select` loop observes a given sequence: each
iteration picks the side of the next event; `outs` are the results of the
writes, iteration by iteration (success once `outs` is used up). -/
def schedOf : List (Side × Event) → List (Option Err) → List Step
  | [], _ => []
  | (s, _) :: rest, [] => ⟨s, none⟩ :: schedOf rest []
  | (s, _) :: rest, w :: ws => ⟨s, w⟩ :: schedOf rest ws

/-- The same iteration with a successful write. -/
def Step.succeed (step : Step) : Step := ⟨step.pick, none⟩

/-- Whether an effect belongs to the report of a failed write. -/
def isReport : Effect → Bool
  | .colorSet .hiRed => true
  | .printlnErr _ _ => true
  | _ => false

/-- The effect with the result of a write forgotten. -/
def forgetResult : Effect → Effect
  | .write dst chunk _ => .write dst chunk none
  | e => e

/-- A trace without the reports of failed writes and without the results of its
writes. -/
def withoutFailures (trace : List Effect) : List Effect :=
  (trace.filter fun e => !isReport e).map forgetResult

/-- Whether a trace line is only a byte-count summary of a chunk of `n` bytes. -/
def isCountSummary (n : Nat) : Effect → Bool
  | .printfCount m => m == n
  | _ => false

/-- A PHP stream that has delivered one byte and is still open. -/
def talkingConn : Conn where
  reads := [⟨[1], none, by decide⟩]
  closeErr := none

/-- A stream that ends without having sent anything; closing it fails. -/
def hangupConn : Conn where
  reads := [⟨[], some "EOF", by decide⟩]
  closeErr := some "use of closed network connection"

/-- A stream that sends `"GET /\r\n"` and then ends. -/
def requestConn : Conn where
  reads := [⟨[71, 69, 84, 32, 47, 13, 10], none, by decide⟩, ⟨[], some "EOF", by decide⟩]
  closeErr := none

/-- A stream that stays open and silent. -/
def silentConn : Conn where
  reads := []
  closeErr := none

/-! ## The stream reader adapter -/

theorem take_read_buffer (data b : List Byte) :
    (data ++ b.drop data.length).take data.length = data := by
  simp

theorem length_read_buffer (data b : List Byte) (hd : data.length ≤ bufSize)
    (hb : b.length = bufSize) : (data ++ b.drop data.length).length = bufSize := by
  simp only [List.length_append, List.length_drop, hb]
  omega

theorem readLoop_events (reads : List ReadResult) :
    ∀ b : List Byte, b.length = bufSize → (readLoop reads b).1 = eventsOf reads := by
  induction reads with
  | nil => intro b _; rfl
  | cons r rest ih =>
    intro b hb
    have hlen := length_read_buffer r.data b r.fits hb
    cases herr : r.err with
    | some e => simp [readLoop, eventsOf, sentOf, herr, ReadResult.n]
    | none =>
      simp only [readLoop, eventsOf, sentOf, herr, ReadResult.n, take_read_buffer]
      rw [ih _ hlen]

theorem chanFromConn_eq (conn : Conn) : chanFromConn conn = eventsOf conn.reads :=
  readLoop_events conn.reads freshBuffer (by simp [freshBuffer])

theorem eventsOf_cons_err (r : ReadResult) (rest : List ReadResult) (e : Err)
    (h : r.err = some e) : eventsOf (r :: rest) = sentOf r ++ [none] := by
  simp [eventsOf, h]

theorem eventsOf_cons_ok (r : ReadResult) (rest : List ReadResult)
    (h : r.err = none) : eventsOf (r :: rest) = sentOf r ++ eventsOf rest := by
  simp [eventsOf, h]

theorem none_not_mem_sentOf (r : ReadResult) : none ∉ sentOf r := by
  unfold sentOf
  split <;> simp

theorem dataChunks_sentOf (r : ReadResult) :
    dataChunks (sentOf r) = if 0 < r.n then [r.data] else [] := by
  unfold sentOf dataChunks
  split <;> simp

theorem dataChunks_append (a b : List Event) :
    dataChunks (a ++ b) = dataChunks a ++ dataChunks b := by
  simp [dataChunks]

theorem dataChunks_eventsOf (reads : List ReadResult) :
    dataChunks (eventsOf reads)
      = ((effectiveReads reads).filter fun r => decide (1 ≤ r.n)).map fun r => r.data := by
  induction reads with
  | nil => rfl
  | cons r rest ih =>
    cases herr : r.err with
    | some e =>
      rw [eventsOf_cons_err r rest e herr, dataChunks_append, dataChunks_sentOf]
      by_cases hn : 0 < r.n
      · have h1 : 1 ≤ r.n := hn
        simp [effectiveReads, herr, hn, h1, dataChunks]
      · have h1 : ¬ 1 ≤ r.n := hn
        simp [effectiveReads, herr, hn, h1, dataChunks]
    | none =>
      rw [eventsOf_cons_ok r rest herr, dataChunks_append, dataChunks_sentOf, ih]
      by_cases hn : 0 < r.n
      · have h1 : 1 ≤ r.n := hn
        simp [effectiveReads, herr, hn, h1]
      · have h1 : ¬ 1 ≤ r.n := hn
        simp [effectiveReads, herr, hn, h1]

theorem flatten_dataChunks_eventsOf (reads : List ReadResult) :
    (dataChunks (eventsOf reads)).flatten
      = ((effectiveReads reads).map fun r => r.data).flatten := by
  induction reads with
  | nil => rfl
  | cons r rest ih =>
    have hs : (dataChunks (sentOf r)).flatten = r.data := by
      rw [dataChunks_sentOf]
      by_cases hn : 0 < r.n
      · simp [hn]
      · have h0 : r.data = [] := by
          have : r.data.length = 0 := by
            simp only [ReadResult.n] at hn
            omega
          exact List.length_eq_zero.mp this
        simp [hn, h0]
    cases herr : r.err with
    | some e =>
      rw [eventsOf_cons_err r rest e herr, dataChunks_append, List.flatten_append, hs]
      simp [effectiveReads, herr, dataChunks]
    | none =>
      rw [eventsOf_cons_ok r rest herr, dataChunks_append, List.flatten_append, hs, ih]
      simp [effectiveReads, herr]

theorem length_flatten_le (k : Nat) (L : List (List Byte)) (h : ∀ c ∈ L, c.length ≤ k) :
    L.flatten.length ≤ k * L.length := by
  induction L with
  | nil => simp
  | cons c cs ih =>
    have hc := h c (List.mem_cons_self c cs)
    have hcs := ih fun d hd => h d (List.mem_cons_of_mem c hd)
    simp only [List.flatten_cons, List.length_append, List.length_cons, Nat.mul_succ]
    omega

theorem bytesRead_burstConn : (bytesRead burstConn).length = 2000 := by
  simp only [bytesRead, burstConn, effectiveReads, List.map_cons, List.map_nil,
    List.flatten_cons, List.flatten_nil, List.length_append, List.length_replicate,
    List.length_nil]

/-- C7. Chunking in `chanFromConn`: the data events are, in order, one per read
that returns at least one byte among the reads up to and including the first one
that returns an error, each carrying exactly the bytes of its read; so every
chunk has between 1 and 1024 bytes, the chunks concatenated are the bytes read,
and 2000 bytes read are delivered in at least two chunks. -/
theorem chanFromConn_chunking (conn : Conn) :
    dataChunks (chanFromConn conn)
        = ((effectiveReads conn.reads).filter fun r => decide (1 ≤ r.n)).map (fun r => r.data)
      ∧ (∀ c ∈ dataChunks (chanFromConn conn), 1 ≤ c.length ∧ c.length ≤ 1024)
      ∧ (dataChunks (chanFromConn conn)).flatten = bytesRead conn
      ∧ ((bytesRead conn).length = 2000 → 2 ≤ (dataChunks (chanFromConn conn)).length) := by
  have hchunks := dataChunks_eventsOf conn.reads
  have hflat := flatten_dataChunks_eventsOf conn.reads
  rw [← chanFromConn_eq] at hchunks hflat
  have hbound : ∀ c ∈ dataChunks (chanFromConn conn), 1 ≤ c.length ∧ c.length ≤ 1024 := by
    intro c hc
    rw [hchunks] at hc
    obtain ⟨r, hr, rfl⟩ := List.mem_map.mp hc
    have hn := (List.mem_filter.mp hr).2
    exact ⟨by simpa [ReadResult.n] using hn, r.fits⟩
  refine ⟨hchunks, hbound, hflat, ?_⟩
  intro h2000
  have hle := length_flatten_le 1024 _ fun c hc => (hbound c hc).2
  rw [hflat] at hle
  unfold bytesRead at h2000
  omega

/-- Witness of C7: the burst of 2000 bytes of `burstConn`. -/
theorem chanFromConn_chunking_witness :
    (bytesRead burstConn).length = 2000
      ∧ 2 ≤ (dataChunks (chanFromConn burstConn)).length :=
  ⟨bytesRead_burstConn, (chanFromConn_chunking burstConn).2.2.2 bytesRead_burstConn⟩

theorem none_mem_eventsOf (reads : List ReadResult) :
    none ∈ eventsOf reads ↔ ∃ r ∈ reads, r.err ≠ none := by
  induction reads with
  | nil => simp [eventsOf]
  | cons r rest ih =>
    cases herr : r.err with
    | some e =>
      rw [eventsOf_cons_err r rest e herr]
      constructor
      · intro _
        exact ⟨r, List.mem_cons_self r rest, by simp [herr]⟩
      · intro _
        simp
    | none =>
      rw [eventsOf_cons_ok r rest herr, List.mem_append, ih]
      constructor
      · rintro (h | ⟨q, hq, hqe⟩)
        · exact absurd h (none_not_mem_sentOf r)
        · exact ⟨q, List.mem_cons_of_mem r hq, hqe⟩
      · rintro ⟨q, hq, hqe⟩
        rcases List.mem_cons.mp hq with rfl | hq
        · exact absurd herr hqe
        · exact Or.inr ⟨q, hq, hqe⟩

theorem count_none_sentOf (r : ReadResult) : (sentOf r).count none = 0 :=
  List.count_eq_zero.mpr (none_not_mem_sentOf r)

theorem count_none_eventsOf (reads : List ReadResult) :
    (eventsOf reads).count none ≤ 1 := by
  induction reads with
  | nil => simp [eventsOf]
  | cons r rest ih =>
    cases herr : r.err with
    | some e =>
      rw [eventsOf_cons_err r rest e herr, List.count_append, count_none_sentOf]
      simp
    | none =>
      rw [eventsOf_cons_ok r rest herr, List.count_append, count_none_sentOf]
      simpa using ih

theorem getLast_eventsOf (reads : List ReadResult) :
    none ∈ eventsOf reads → (eventsOf reads).getLast? = some none := by
  induction reads with
  | nil => simp [eventsOf]
  | cons r rest ih =>
    cases herr : r.err with
    | some e =>
      intro _
      rw [eventsOf_cons_err r rest e herr]
      exact List.getLast?_concat _
    | none =>
      rw [eventsOf_cons_ok r rest herr]
      intro h
      rcases List.mem_append.mp h with h | h
      · exact absurd h (none_not_mem_sentOf r)
      · rw [List.getLast?_append, ih h]
        rfl

theorem eventsOf_error_with_bytes (pre : List ReadResult) (r : ReadResult)
    (post : List ReadResult) (hpre : ∀ q ∈ pre, q.err = none) (herr : r.err ≠ none)
    (hdata : r.data ≠ []) :
    ∃ evs, eventsOf (pre ++ r :: post) = evs ++ [some r.data, none] := by
  induction pre with
  | nil =>
    obtain ⟨e, he⟩ := Option.ne_none_iff_exists'.mp herr
    have hn : 0 < r.n := List.length_pos.mpr hdata
    exact ⟨[], by simp [eventsOf, sentOf, he, hn]⟩
  | cons q qs ih =>
    obtain ⟨evs, hevs⟩ := ih fun x hx => hpre x (List.mem_cons_of_mem q hx)
    refine ⟨sentOf q ++ evs, ?_⟩
    rw [List.cons_append, eventsOf_cons_ok q _ (hpre q (List.mem_cons_self q qs)), hevs,
      List.append_assoc]

theorem empty_chunk_not_mem_eventsOf (reads : List ReadResult) :
    some [] ∉ eventsOf reads := by
  have hs : ∀ r : ReadResult, some [] ∉ sentOf r := by
    intro r
    unfold sentOf
    split
    · rename_i hn
      intro h
      have h0 : r.data = [] := by simpa [eq_comm] using h
      simp [ReadResult.n, h0] at hn
    · simp
  induction reads with
  | nil => simp [eventsOf]
  | cons r rest ih =>
    cases herr : r.err with
    | some e =>
      rw [eventsOf_cons_err r rest e herr]
      simp [hs r]
    | none =>
      rw [eventsOf_cons_ok r rest herr]
      simp [hs r, ih]

theorem eventsOf_skip_empty (pre : List ReadResult) (r : ReadResult)
    (post : List ReadResult) (hdata : r.data = []) (herr : r.err = none) :
    eventsOf (pre ++ r :: post) = eventsOf (pre ++ post) := by
  induction pre with
  | nil => simp [eventsOf, sentOf, ReadResult.n, hdata, herr]
  | cons q qs ih =>
    cases hq : q.err with
    | some e =>
      rw [List.cons_append, List.cons_append, eventsOf_cons_err q _ e hq,
        eventsOf_cons_err q _ e hq]
    | none =>
      rw [List.cons_append, List.cons_append, eventsOf_cons_ok q _ hq,
        eventsOf_cons_ok q _ hq, ih]

/-- C8. Adapter termination in `chanFromConn`: the delivered events contain a
closed (nil) event exactly when some read returned an error; there is at most
one closed event and it is the last event; bytes returned together with the
error are delivered as a data event immediately before it; no data event is
empty, and a read of zero bytes without an error delivers no event. -/
theorem chanFromConn_termination (conn : Conn) :
    (none ∈ chanFromConn conn ↔ ∃ r ∈ conn.reads, r.err ≠ none)
      ∧ (chanFromConn conn).count none ≤ 1
      ∧ (none ∈ chanFromConn conn → (chanFromConn conn).getLast? = some none)
      ∧ (∀ pre r post, conn.reads = pre ++ r :: post → (∀ q ∈ pre, q.err = none) →
          r.err ≠ none → r.data ≠ [] →
          ∃ evs, chanFromConn conn = evs ++ [some r.data, none])
      ∧ some [] ∉ chanFromConn conn
      ∧ (∀ pre r post, conn.reads = pre ++ r :: post → r.data = [] → r.err = none →
          chanFromConn conn = chanFromConn ⟨pre ++ post, conn.closeErr⟩) := by
  refine ⟨?_, ?_, ?_, ?_, ?_, ?_⟩
  · rw [chanFromConn_eq]
    exact none_mem_eventsOf conn.reads
  · rw [chanFromConn_eq]
    exact count_none_eventsOf conn.reads
  · rw [chanFromConn_eq]
    exact getLast_eventsOf conn.reads
  · intro pre r post hreads hpre herr hdata
    rw [chanFromConn_eq, hreads]
    exact eventsOf_error_with_bytes pre r post hpre herr hdata
  · rw [chanFromConn_eq]
    exact empty_chunk_not_mem_eventsOf conn.reads
  · intro pre r post hreads hdata herr
    rw [chanFromConn_eq, chanFromConn_eq, hreads]
    exact eventsOf_skip_empty pre r post hdata herr

/-- Witness of C8: on `lastWordsConn` the two bytes returned with the error are
delivered right before the closed event, and the empty read leaves no trace. -/
theorem chanFromConn_termination_witness :
    chanFromConn lastWordsConn = [some [104, 105], none]
      ∧ (chanFromConn lastWordsConn).getLast? = some none
      ∧ (∃ evs, chanFromConn lastWordsConn = evs ++ [some [104, 105], none])
      ∧ chanFromConn lastWordsConn
          = chanFromConn ⟨[⟨[104, 105], some "EOF", by decide⟩, ⟨[1], none, by decide⟩], none⟩ :=
  ⟨by decide,
   (chanFromConn_termination lastWordsConn).2.2.1 (by decide),
   (chanFromConn_termination lastWordsConn).2.2.2.1 [⟨[], none, by decide⟩]
      ⟨[104, 105], some "EOF", by decide⟩ [⟨[1], none, by decide⟩] rfl
      (by simp) (by simp) (by simp),
   (chanFromConn_termination lastWordsConn).2.2.2.2.2 [] ⟨[], none, by decide⟩
      [⟨[104, 105], some "EOF", by decide⟩, ⟨[1], none, by decide⟩] rfl rfl rfl⟩

/-! ## The log view of IDE traffic -/

theorem rdropWhile_split (p : Byte → Bool) (l : List Byte) :
    ∃ t, l = l.rdropWhile p ++ t ∧ ∀ x ∈ t, p x = true := by
  induction l using List.reverseRecOn with
  | nil => exact ⟨[], by simp⟩
  | append_singleton l x ih =>
    by_cases hx : p x = true
    · obtain ⟨t, ht, hall⟩ := ih
      refine ⟨t ++ [x], ?_, ?_⟩
      · rw [List.rdropWhile_concat_pos _ _ _ hx, ← List.append_assoc, ← ht]
      · intro y hy
        rcases List.mem_append.mp hy with hy | hy
        · exact hall y hy
        · rw [List.mem_singleton.mp hy]
          exact hx
    · exact ⟨[], by rw [List.rdropWhile_concat_neg _ _ _ hx]; simp, by simp⟩

theorem eq_replicate_newline (t : List Byte)
    (h : ∀ x ∈ t, decide (x ∈ [(10 : Byte)]) = true) : t = List.replicate t.length 10 :=
  List.eq_replicate_iff.mpr ⟨rfl, fun x hx => by simpa using h x hx⟩

theorem stringsTrim_split (s : List Byte) :
    ∃ k m, s = List.replicate k 10 ++ stringsTrim s [10] ++ List.replicate m 10 := by
  obtain ⟨t, ht, hall⟩ :=
    rdropWhile_split (fun c => decide (c ∈ [(10 : Byte)]))
      (s.dropWhile fun c => decide (c ∈ [(10 : Byte)]))
  refine ⟨(s.takeWhile fun c => decide (c ∈ [(10 : Byte)])).length, t.length, ?_⟩
  have hsplit := List.takeWhile_append_dropWhile (fun c => decide (c ∈ [(10 : Byte)])) s
  have hall2 : ∀ x ∈ s.takeWhile fun c => decide (c ∈ [(10 : Byte)]),
      decide (x ∈ [(10 : Byte)]) = true := by
    intro x hx
    exact @List.mem_takeWhile_imp Byte (fun c => decide (c ∈ [(10 : Byte)])) s x hx
  rw [← eq_replicate_newline t hall, ← eq_replicate_newline _ hall2]
  unfold stringsTrim
  rw [List.append_assoc, ← ht, hsplit]

theorem stringsTrim_head (s : List Byte) : (stringsTrim s [10]).head? ≠ some 10 := by
  intro h
  obtain ⟨t, ht⟩ := List.rdropWhile_prefix (fun c => decide (c ∈ [(10 : Byte)]))
    (s.dropWhile fun c => decide (c ∈ [(10 : Byte)]))
  have hd : (s.dropWhile fun c => decide (c ∈ [(10 : Byte)])).head? = some 10 := by
    rw [← ht]
    unfold stringsTrim at h
    rw [List.head?_append, h]
    rfl
  have hnot := List.head?_dropWhile_not (fun c => decide (c ∈ [(10 : Byte)])) s
  rw [hd] at hnot
  simp at hnot

theorem stringsTrim_last (s : List Byte) : (stringsTrim s [10]).getLast? ≠ some 10 := by
  intro h
  have hne : stringsTrim s [10] ≠ [] := by
    intro h0
    rw [h0] at h
    simp at h
  have hlast : (stringsTrim s [10]).getLast hne = 10 := by
    rw [List.getLast?_eq_getLast _ hne] at h
    exact Option.some.inj h
  have hnot := List.rdropWhile_last_not (fun c => decide (c ∈ [(10 : Byte)]))
    (s.dropWhile fun c => decide (c ∈ [(10 : Byte)])) hne
  apply hnot
  have : (List.rdropWhile (fun c => decide (c ∈ [(10 : Byte)]))
      (s.dropWhile fun c => decide (c ∈ [(10 : Byte)]))).getLast hne = 10 := hlast
  rw [this]
  decide

/-- C6, as the code has it. The text logged for an IDE chunk `b2` is `b2` with
every NUL byte replaced by a newline and with its leading and its trailing
newlines removed, nothing else changed: the chunk with its NUL bytes replaced is
some newlines, then the logged text, then some newlines, and the logged text
neither starts nor ends with a newline. For `"cmd\x00arg\x00"` the logged text
is `"cmd\narg"`. -/
theorem logView_trims_both_ends (b2 : List Byte) :
    (∃ k m, (b2.map fun c => if c = 0 then 10 else c)
        = List.replicate k 10 ++ logView b2 ++ List.replicate m 10)
      ∧ (logView b2).head? ≠ some 10
      ∧ (logView b2).getLast? ≠ some 10
      ∧ logView cmdArg = [99, 109, 100, 10, 97, 114, 103] :=
  ⟨stringsTrim_split _, stringsTrim_head _, stringsTrim_last _, by decide⟩

/-- C6 as stated fails: for the chunk `"\x00c"` the logged text is `"c"`, not the
chunk with its NUL replaced and only trailing newlines removed (`"\nc"`). -/
theorem logView_not_trailing_only :
    logView [0, 99] = [99] ∧ trailingTrimView [0, 99] = [10, 99]
      ∧ ¬ (∀ b2 : List Byte, logView b2 = trailingTrimView b2) :=
  ⟨by decide, by decide, fun h => absurd (h [0, 99]) (by decide)⟩

/-! ## The duplex pump -/

theorem select_php_ready (e : Event) (p i : List Event) :
    select .php (e :: p) i = some (.php, e, p, i) := by
  cases i <;> rfl

theorem select_ide_ready (e : Event) (p i : List Event) :
    select .ide p (e :: i) = some (.ide, e, p, i) := by
  cases p <;> rfl

theorem select_spec (pick : Side) (p i : List Event) (s : Side) (e : Event)
    (p1 i1 : List Event) (h : select pick p i = some (s, e, p1, i1)) :
    (s = .php ∧ p = e :: p1 ∧ i1 = i) ∨ (s = .ide ∧ i = e :: i1 ∧ p1 = p) := by
  cases pick <;> cases p <;> cases i <;> simp [select] at h <;>
    obtain ⟨rfl, rfl, rfl, rfl⟩ := h <;> simp

theorem select_none (pick : Side) (p i : List Event) (h : select pick p i = none) :
    p = [] ∧ i = [] := by
  cases pick <;> cases p <;> cases i <;> simp [select] at h <;> simp

theorem proxyLoop_blocked (verbose : Bool) (step : Step) (rest : List Step)
    (p i : List Event) (h : select step.pick p i = none) :
    proxyLoop verbose (step :: rest) p i = ⟨.blocked, [], p, i⟩ := by
  simp [proxyLoop, h]

theorem proxyLoop_closed (verbose : Bool) (step : Step) (rest : List Step)
    (p i : List Event) (s : Side) (p1 i1 : List Event)
    (h : select step.pick p i = some (s, none, p1, i1)) :
    proxyLoop verbose (step :: rest) p i = ⟨.returned s, onClosed s, p1, i1⟩ := by
  simp [proxyLoop, h]

theorem proxyLoop_php_data (verbose : Bool) (step : Step) (rest : List Step)
    (p i : List Event) (b1 : List Byte) (p1 i1 : List Event)
    (h : select step.pick p i = some (.php, some b1, p1, i1)) :
    proxyLoop verbose (step :: rest) p i
      = { proxyLoop verbose rest p1 i1 with
          trace := onPhpData verbose b1 step.writeResult
            ++ (proxyLoop verbose rest p1 i1).trace } := by
  simp [proxyLoop, h]

theorem proxyLoop_ide_data (verbose : Bool) (step : Step) (rest : List Step)
    (p i : List Event) (b2 : List Byte) (p1 i1 : List Event)
    (h : select step.pick p i = some (.ide, some b2, p1, i1)) :
    proxyLoop verbose (step :: rest) p i
      = { proxyLoop verbose rest p1 i1 with
          trace := onIdeData b2 step.writeResult
            ++ (proxyLoop verbose rest p1 i1).trace } := by
  simp [proxyLoop, h]

theorem writeCalls_append (a b : List Effect) :
    writeCalls (a ++ b) = writeCalls a ++ writeCalls b := by
  induction a with
  | nil => rfl
  | cons e es ih => cases e <;> simp [writeCalls, ih]

theorem writeCalls_writeReport (text : String) (w : Option Err) :
    writeCalls (writeReport text w) = [] := by
  cases w <;> rfl

theorem writeCalls_onPhpData (verbose : Bool) (b1 : List Byte) (w : Option Err) :
    writeCalls (onPhpData verbose b1 w) = [(.ide, b1)] := by
  cases verbose <;> simp [onPhpData, writeCalls, writeCalls_writeReport]

theorem writeCalls_onIdeData (b2 : List Byte) (w : Option Err) :
    writeCalls (onIdeData b2 w) = [(.php, b2)] := by
  simp [onIdeData, writeCalls, writeCalls_writeReport]

theorem writeCalls_onClosed (s : Side) : writeCalls (onClosed s) = [] := by
  cases s <;> rfl

/-- C2. Logging non-interference: in an iteration that receives a non-nil chunk
`b2` from the IDE, what the iteration does is print the log view of `b2`, call
`phpConn.Write` with `b2` itself, and report the error of that write if there is
one; the argument of the write is `b2` also where the log view differs from it,
as it does for `"cmd\x00arg\x00"`. -/
theorem logging_non_interference (verbose : Bool) (step : Step) (rest : List Step)
    (phpChan ideChan : List Event) (b2 : List Byte) (p i : List Event)
    (h : select step.pick phpChan ideChan = some (.ide, some b2, p, i)) :
    (proxyLoop verbose (step :: rest) phpChan ideChan).trace
        = Effect.printlnColoured "> php: " .hiRed (logView b2)
          :: Effect.write .php b2 step.writeResult
          :: (writeReport "! Error writing to IDE: " step.writeResult
              ++ (proxyLoop verbose rest p i).trace)
      ∧ writeCalls (proxyLoop verbose (step :: rest) phpChan ideChan).trace
        = (.php, b2) :: writeCalls (proxyLoop verbose rest p i).trace
      ∧ logView cmdArg ≠ cmdArg := by
  rw [proxyLoop_ide_data verbose step rest phpChan ideChan b2 p i h]
  refine ⟨rfl, ?_, by decide⟩
  simp only [writeCalls_append, writeCalls_onIdeData]
  rfl

/-- Witness of C2: the chunk `"cmd\x00arg\x00"` of the IDE is logged as
`"cmd\narg"` and written to PHP as it came. -/
theorem logging_non_interference_witness :
    select .ide [] [some cmdArg] = some (.ide, some cmdArg, [], [])
      ∧ (proxyLoop false [⟨.ide, none⟩] [] [some cmdArg]).trace
        = [Effect.printlnColoured "> php: " .hiRed [99, 109, 100, 10, 97, 114, 103],
           Effect.write .php [99, 109, 100, 0, 97, 114, 103, 0] none] :=
  ⟨rfl, (logging_non_interference false ⟨.ide, none⟩ [] [] [some cmdArg] cmdArg [] [] rfl).1⟩

/-- C9, as the code has it. The iteration for a chunk from PHP prints exactly one
trace line before its write, which shows the chunk's content when
`config.verbose` is true and only its length in bytes when it is false, and after
the write prints nothing but the report of a failed write; the iteration for a
chunk from the IDE prints exactly one trace line before its write, which shows
the log view of the chunk whatever `config.verbose` is. -/
theorem trace_form (verbose : Bool) (step : Step) (rest : List Step)
    (phpChan ideChan : List Event) :
    (∀ b1 p i, select step.pick phpChan ideChan = some (.php, some b1, p, i) →
        (proxyLoop verbose (step :: rest) phpChan ideChan).trace
          = (if verbose then Effect.printlnColoured "> ide: " .hiBlue b1
             else Effect.printfCount b1.length)
            :: Effect.write .ide b1 step.writeResult
            :: (writeReport "! Error writing to PHP: " step.writeResult
                ++ (proxyLoop verbose rest p i).trace))
      ∧ (∀ b2 p i, select step.pick phpChan ideChan = some (.ide, some b2, p, i) →
        (proxyLoop verbose (step :: rest) phpChan ideChan).trace
          = Effect.printlnColoured "> php: " .hiRed (logView b2)
            :: Effect.write .php b2 step.writeResult
            :: (writeReport "! Error writing to IDE: " step.writeResult
                ++ (proxyLoop verbose rest p i).trace)) := by
  constructor
  · intro b1 p i h
    rw [proxyLoop_php_data verbose step rest phpChan ideChan b1 p i h]
    rfl
  · intro b2 p i h
    rw [proxyLoop_ide_data verbose step rest phpChan ideChan b2 p i h]
    rfl

/-- Witness of C9: without `verbose` the whole iteration for a chunk `"ab"` from
PHP is the byte-count line and the write, and the whole iteration for the same
chunk from the IDE is the line with its content and the write; with `verbose`
the line for the chunk from PHP shows its content. -/
theorem trace_form_witness :
    (proxyLoop false [⟨.php, none⟩] [some [97, 98]] []).trace
        = [Effect.printfCount 2, Effect.write .ide [97, 98] none]
      ∧ (proxyLoop true [⟨.php, none⟩] [some [97, 98]] []).trace
        = [Effect.printlnColoured "> ide: " .hiBlue [97, 98], Effect.write .ide [97, 98] none]
      ∧ (proxyLoop false [⟨.ide, none⟩] [] [some [97, 98]]).trace
        = [Effect.printlnColoured "> php: " .hiRed [97, 98], Effect.write .php [97, 98] none] :=
  ⟨(trace_form false ⟨.php, none⟩ [] [some [97, 98]] []).1 [97, 98] [] [] rfl,
   (trace_form true ⟨.php, none⟩ [] [some [97, 98]] []).1 [97, 98] [] [] rfl,
   (trace_form false ⟨.ide, none⟩ [] [] [some [97, 98]]).2 [97, 98] [] [] rfl⟩

/-- C9 as stated fails: with `config.verbose` false, the trace line of the chunk
`"ab"` received from the IDE shows the content of the chunk, not a byte-count
summary. -/
theorem trace_form_ide_not_summary :
    select .ide [] [some [97, 98]] = some (.ide, some [97, 98], [], [])
      ∧ (proxyLoop false [⟨.ide, none⟩] [] [some [97, 98]]).trace.head?
        = some (Effect.printlnColoured "> php: " .hiRed [97, 98])
      ∧ ¬ (∀ e ∈ (proxyLoop false [⟨.ide, none⟩] [] [some [97, 98]]).trace.head?,
            isCountSummary 2 e = true) := by
  refine ⟨rfl, by decide, ?_⟩
  intro h
  exact absurd (h (Effect.printlnColoured "> php: " .hiRed [97, 98]) (by decide)) (by decide)

theorem chanOf_cons_same (side : Side) (e : Event) (rest : List (Side × Event)) :
    chanOf side ((side, e) :: rest) = e :: chanOf side rest := by
  simp [chanOf]

theorem chanOf_cons_other (side s : Side) (e : Event) (rest : List (Side × Event))
    (h : s ≠ side) : chanOf side ((s, e) :: rest) = chanOf side rest := by
  simp [chanOf, h]

theorem schedOf_cons (s : Side) (e : Event) (rest : List (Side × Event))
    (outs : List (Option Err)) :
    ∃ w outs1, schedOf ((s, e) :: rest) outs = ⟨s, w⟩ :: schedOf rest outs1 := by
  cases outs with
  | nil => exact ⟨none, [], rfl⟩
  | cons w ws => exact ⟨w, ws, rfl⟩

/-- C10. Per-event forwarding: for every sequence of events observed by the
`select` loop, every value of `config.verbose` and every outcome of the writes,
the `Write` calls issued are exactly one per data event before the first closed
event, in the order observed, to the opposite stream, with the chunk unmodified;
no `Write` is issued for an event after the first closed event. -/
theorem per_event_forwarding (verbose : Bool) (obs : List (Side × Event))
    (outs : List (Option Err)) :
    writeCalls
        (proxyLoop verbose (schedOf obs outs) (chanOf .php obs) (chanOf .ide obs)).trace
      = expectedWrites obs := by
  induction obs generalizing outs with
  | nil => cases outs <;> rfl
  | cons o rest ih =>
    obtain ⟨s, e⟩ := o
    obtain ⟨w, outs1, hs⟩ := schedOf_cons s e rest outs
    rw [hs]
    cases s with
    | php =>
      rw [chanOf_cons_same, chanOf_cons_other .ide .php e rest (by decide)]
      cases e with
      | none =>
        rw [proxyLoop_closed verbose _ _ _ _ .php _ _ (select_php_ready none _ _)]
        rfl
      | some b1 =>
        rw [proxyLoop_php_data verbose _ _ _ _ b1 _ _ (select_php_ready (some b1) _ _)]
        simp only [writeCalls_append, writeCalls_onPhpData, ih outs1]
        rfl
    | ide =>
      rw [chanOf_cons_same, chanOf_cons_other .php .ide e rest (by decide)]
      cases e with
      | none =>
        rw [proxyLoop_closed verbose _ _ _ _ .ide _ _ (select_ide_ready none _ _)]
        rfl
      | some b2 =>
        rw [proxyLoop_ide_data verbose _ _ _ _ b2 _ _ (select_ide_ready (some b2) _ _)]
        simp only [writeCalls_append, writeCalls_onIdeData, ih outs1]
        rfl

theorem withoutFailures_append (a b : List Effect) :
    withoutFailures (a ++ b) = withoutFailures a ++ withoutFailures b := by
  simp [withoutFailures]

theorem withoutFailures_onPhpData (verbose : Bool) (b1 : List Byte) (w : Option Err) :
    withoutFailures (onPhpData verbose b1 w) = onPhpData verbose b1 none := by
  cases verbose <;> cases w <;>
    simp [withoutFailures, onPhpData, writeReport, isReport, forgetResult]

theorem withoutFailures_onIdeData (b2 : List Byte) (w : Option Err) :
    withoutFailures (onIdeData b2 w) = onIdeData b2 none := by
  cases w <;> simp [withoutFailures, onIdeData, writeReport, isReport, forgetResult]

theorem withoutFailures_onClosed (s : Side) : withoutFailures (onClosed s) = onClosed s := by
  cases s <;> simp [withoutFailures, onClosed, isReport, forgetResult]

theorem proxyLoop_succeed (verbose : Bool) (sched : List Step) :
    ∀ p i : List Event,
      (proxyLoop verbose sched p i).outcome
          = (proxyLoop verbose (sched.map Step.succeed) p i).outcome
        ∧ (proxyLoop verbose sched p i).phpChan
          = (proxyLoop verbose (sched.map Step.succeed) p i).phpChan
        ∧ (proxyLoop verbose sched p i).ideChan
          = (proxyLoop verbose (sched.map Step.succeed) p i).ideChan
        ∧ withoutFailures (proxyLoop verbose sched p i).trace
          = (proxyLoop verbose (sched.map Step.succeed) p i).trace := by
  induction sched with
  | nil => intro p i; exact ⟨rfl, rfl, rfl, rfl⟩
  | cons step rest ih =>
    intro p i
    rw [List.map_cons]
    have hpick : (Step.succeed step).pick = step.pick := rfl
    cases hsel : select step.pick p i with
    | none =>
      rw [proxyLoop_blocked verbose step rest p i hsel,
        proxyLoop_blocked verbose _ _ p i (hpick ▸ hsel)]
      exact ⟨rfl, rfl, rfl, rfl⟩
    | some got =>
      obtain ⟨s, e, p1, i1⟩ := got
      cases e with
      | none =>
        rw [proxyLoop_closed verbose step rest p i s p1 i1 hsel,
          proxyLoop_closed verbose _ _ p i s p1 i1 (hpick ▸ hsel)]
        exact ⟨rfl, rfl, rfl, withoutFailures_onClosed s⟩
      | some b =>
        obtain ⟨h1, h2, h3, h4⟩ := ih p1 i1
        cases s with
        | php =>
          rw [proxyLoop_php_data verbose step rest p i b p1 i1 hsel,
            proxyLoop_php_data verbose _ _ p i b p1 i1 (hpick ▸ hsel)]
          refine ⟨h1, h2, h3, ?_⟩
          show withoutFailures (_ ++ _) = _ ++ _
          rw [withoutFailures_append, withoutFailures_onPhpData, h4]
          rfl
        | ide =>
          rw [proxyLoop_ide_data verbose step rest p i b p1 i1 hsel,
            proxyLoop_ide_data verbose _ _ p i b p1 i1 (hpick ▸ hsel)]
          refine ⟨h1, h2, h3, ?_⟩
          show withoutFailures (_ ++ _) = _ ++ _
          rw [withoutFailures_append, withoutFailures_onIdeData, h4]
          rfl

/-- The effects of an iteration that receives a data event. -/
theorem proxyLoop_data (verbose : Bool) (step : Step) (rest : List Step)
    (p i : List Event) (side : Side) (chunk : List Byte) (p1 i1 : List Event)
    (h : select step.pick p i = some (side, some chunk, p1, i1)) :
    ∃ effects : Option Err → List Effect,
      (∀ w, writeCalls (effects w) = [(side.opposite, chunk)])
        ∧ (∀ w, withoutFailures (effects w) = effects none)
        ∧ ∀ w, proxyLoop verbose (⟨step.pick, w⟩ :: rest) p i
            = { proxyLoop verbose rest p1 i1 with
                trace := effects w ++ (proxyLoop verbose rest p1 i1).trace } := by
  cases side with
  | php =>
    exact ⟨onPhpData verbose chunk, fun w => writeCalls_onPhpData verbose chunk w,
      fun w => withoutFailures_onPhpData verbose chunk w,
      fun w => proxyLoop_php_data verbose ⟨step.pick, w⟩ rest p i chunk p1 i1 h⟩
  | ide =>
    exact ⟨onIdeData chunk, fun w => writeCalls_onIdeData chunk w,
      fun w => withoutFailures_onIdeData chunk w,
      fun w => proxyLoop_ide_data verbose ⟨step.pick, w⟩ rest p i chunk p1 i1 h⟩

/-- C4. Write-failure tolerance: an iteration whose forwarding write fails issues
that one write, reports the error and goes on with the next iteration from the
same state as after a successful write; over a whole run, the outcome, the
events left in the channels, the `Write` calls and the trace apart from the
reports are those of the run in which every write succeeds. -/
theorem write_failure_tolerance (verbose : Bool) (sched : List Step)
    (phpChan ideChan : List Event) :
    (∀ (pick : Side) (err : Err) (rest : List Step) (side : Side) (chunk : List Byte)
        (p i : List Event),
        select pick phpChan ideChan = some (side, some chunk, p, i) →
        ∃ effects : Option Err → List Effect,
          proxyLoop verbose (⟨pick, some err⟩ :: rest) phpChan ideChan
              = { proxyLoop verbose rest p i with
                  trace := effects (some err) ++ (proxyLoop verbose rest p i).trace }
            ∧ proxyLoop verbose (⟨pick, none⟩ :: rest) phpChan ideChan
              = { proxyLoop verbose rest p i with
                  trace := effects none ++ (proxyLoop verbose rest p i).trace }
            ∧ writeCalls (effects (some err)) = [(side.opposite, chunk)]
            ∧ withoutFailures (effects (some err)) = effects none)
      ∧ (proxyLoop verbose sched phpChan ideChan).outcome
          = (proxyLoop verbose (sched.map Step.succeed) phpChan ideChan).outcome
      ∧ (proxyLoop verbose sched phpChan ideChan).phpChan
          = (proxyLoop verbose (sched.map Step.succeed) phpChan ideChan).phpChan
      ∧ (proxyLoop verbose sched phpChan ideChan).ideChan
          = (proxyLoop verbose (sched.map Step.succeed) phpChan ideChan).ideChan
      ∧ withoutFailures (proxyLoop verbose sched phpChan ideChan).trace
          = (proxyLoop verbose (sched.map Step.succeed) phpChan ideChan).trace := by
  refine ⟨?_, proxyLoop_succeed verbose sched phpChan ideChan⟩
  intro pick err rest side chunk p i h
  obtain ⟨effects, hw, hf, hrun⟩ :=
    proxyLoop_data verbose ⟨pick, none⟩ rest phpChan ideChan side chunk p i h
  exact ⟨effects, hrun (some err), hrun none, hw (some err), hf (some err)⟩

/-- Witness of C4: the write of the first chunk from PHP fails; the second chunk
is forwarded all the same and the first one is written once. -/
theorem write_failure_tolerance_witness :
    select .php [some [1], some [2]] [] = some (.php, some [1], [some [2]], [])
      ∧ writeCalls (proxyLoop false [⟨.php, some "broken pipe"⟩, ⟨.php, none⟩]
          [some [1], some [2]] []).trace = [(.ide, [1]), (.ide, [2])]
      ∧ ∃ effects : Option Err → List Effect,
          proxyLoop false [⟨.php, some "broken pipe"⟩, ⟨.php, none⟩] [some [1], some [2]] []
              = { proxyLoop false [⟨.php, none⟩] [some [2]] [] with
                  trace := effects (some "broken pipe")
                    ++ (proxyLoop false [⟨.php, none⟩] [some [2]] []).trace }
            ∧ proxyLoop false [⟨.php, none⟩, ⟨.php, none⟩] [some [1], some [2]] []
              = { proxyLoop false [⟨.php, none⟩] [some [2]] [] with
                  trace := effects none
                    ++ (proxyLoop false [⟨.php, none⟩] [some [2]] []).trace }
            ∧ writeCalls (effects (some "broken pipe")) = [(Side.php.opposite, [1])]
            ∧ withoutFailures (effects (some "broken pipe")) = effects none :=
  ⟨rfl, by decide,
   (write_failure_tolerance false [] [some [1], some [2]] []).1 .php "broken pipe"
      [⟨.php, none⟩] .php [1] [some [2]] [] rfl⟩

theorem closeCalls_append (a b : List Effect) :
    closeCalls (a ++ b) = closeCalls a ++ closeCalls b := by
  induction a with
  | nil => rfl
  | cons e es ih => cases e <;> simp [closeCalls, ih]

theorem closeCalls_onPhpData (verbose : Bool) (b1 : List Byte) (w : Option Err) :
    closeCalls (onPhpData verbose b1 w) = [] := by
  cases verbose <;> cases w <;> rfl

theorem closeCalls_onIdeData (b2 : List Byte) (w : Option Err) :
    closeCalls (onIdeData b2 w) = [] := by
  cases w <;> rfl

theorem closeCalls_onClosed (s : Side) : closeCalls (onClosed s) = [] := by
  cases s <;> rfl

theorem closeCalls_proxyLoop (verbose : Bool) (sched : List Step) :
    ∀ p i : List Event, closeCalls (proxyLoop verbose sched p i).trace = [] := by
  induction sched with
  | nil => intro p i; rfl
  | cons step rest ih =>
    intro p i
    cases hsel : select step.pick p i with
    | none =>
      rw [proxyLoop_blocked verbose step rest p i hsel]
      rfl
    | some got =>
      obtain ⟨s, e, p1, i1⟩ := got
      cases e with
      | none =>
        rw [proxyLoop_closed verbose step rest p i s p1 i1 hsel]
        exact closeCalls_onClosed s
      | some b =>
        cases s with
        | php =>
          rw [proxyLoop_php_data verbose step rest p i b p1 i1 hsel]
          show closeCalls (_ ++ _) = _
          rw [closeCalls_append, closeCalls_onPhpData, ih p1 i1]
          rfl
        | ide =>
          rw [proxyLoop_ide_data verbose step rest p i b p1 i1 hsel]
          show closeCalls (_ ++ _) = _
          rw [closeCalls_append, closeCalls_onIdeData, ih p1 i1]
          rfl

theorem handleProxy_returned (verbose : Bool) (phpConn ideConn : Conn) (sched : List Step)
    (s : Side)
    (h : (proxyLoop verbose sched (chanFromConn phpConn) (chanFromConn ideConn)).outcome
      = .returned s) :
    handleProxy verbose phpConn ideConn sched
      = { proxyLoop verbose sched (chanFromConn phpConn) (chanFromConn ideConn) with
          trace := (proxyLoop verbose sched (chanFromConn phpConn) (chanFromConn ideConn)).trace
            ++ deferredCloses phpConn ideConn } := by
  simp only [handleProxy, h]

theorem handleProxy_outcome (verbose : Bool) (phpConn ideConn : Conn) (sched : List Step) :
    (handleProxy verbose phpConn ideConn sched).outcome
      = (proxyLoop verbose sched (chanFromConn phpConn) (chanFromConn ideConn)).outcome := by
  unfold handleProxy
  cases h : (proxyLoop verbose sched (chanFromConn phpConn) (chanFromConn ideConn)).outcome <;>
    simp [h]

/-- C5. Teardown of `handleProxy`: whenever `handleProxy` returns, on the closed
event of either side, the last two calls it has made are `phpConn.Close()` and
`ideConn.Close()`, and these are its only `Close` calls; whatever errors the two
calls return, both are made and the run is otherwise the same (same outcome for
the caller, same trace before the closes, same channels). -/
theorem teardown (verbose : Bool) (phpConn ideConn : Conn) (sched : List Step) (s : Side)
    (h : (handleProxy verbose phpConn ideConn sched).outcome = .returned s) :
    ∃ pre,
      (handleProxy verbose phpConn ideConn sched).trace
          = pre ++ [.close .php phpConn.closeErr, .close .ide ideConn.closeErr]
        ∧ closeCalls pre = []
        ∧ closeCalls (handleProxy verbose phpConn ideConn sched).trace = [.php, .ide]
        ∧ ∀ e1 e2 : Option Err,
            handleProxy verbose ⟨phpConn.reads, e1⟩ ⟨ideConn.reads, e2⟩ sched
              = { handleProxy verbose phpConn ideConn sched with
                  trace := pre ++ [.close .php e1, .close .ide e2] } := by
  rw [handleProxy_outcome] at h
  refine ⟨(proxyLoop verbose sched (chanFromConn phpConn) (chanFromConn ideConn)).trace,
    ?_, closeCalls_proxyLoop verbose sched _ _, ?_, ?_⟩
  · rw [handleProxy_returned verbose phpConn ideConn sched s h]
    rfl
  · rw [handleProxy_returned verbose phpConn ideConn sched s h]
    show closeCalls (_ ++ _) = _
    rw [closeCalls_append, closeCalls_proxyLoop]
    rfl
  · intro e1 e2
    have h1 : (proxyLoop verbose sched (chanFromConn ⟨phpConn.reads, e1⟩)
        (chanFromConn ⟨ideConn.reads, e2⟩)).outcome = .returned s := h
    rw [handleProxy_returned verbose phpConn ideConn sched s h,
      handleProxy_returned verbose ⟨phpConn.reads, e1⟩ ⟨ideConn.reads, e2⟩ sched s h1]
    rfl

/-- Witness of C5: the IDE hangs up, its `Close` then fails; both streams are
closed and `handleProxy` returns. -/
theorem teardown_witness :
    (handleProxy false talkingConn hangupConn [⟨.ide, none⟩]).outcome = .returned .ide
      ∧ ∃ pre,
        (handleProxy false talkingConn hangupConn [⟨.ide, none⟩]).trace
            = pre ++ [.close .php talkingConn.closeErr, .close .ide hangupConn.closeErr]
          ∧ closeCalls pre = []
          ∧ closeCalls (handleProxy false talkingConn hangupConn [⟨.ide, none⟩]).trace
            = [.php, .ide]
          ∧ ∀ e1 e2 : Option Err,
              handleProxy false ⟨talkingConn.reads, e1⟩ ⟨hangupConn.reads, e2⟩ [⟨.ide, none⟩]
                = { handleProxy false talkingConn hangupConn [⟨.ide, none⟩] with
                    trace := pre ++ [.close .php e1, .close .ide e2] } :=
  ⟨by decide, teardown false talkingConn hangupConn [⟨.ide, none⟩] .ide (by decide)⟩

theorem proxyLoop_returns (verbose : Bool) (sched : List Step) :
    ∀ p i : List Event, (none ∈ p ∨ none ∈ i) → p.length + i.length ≤ sched.length →
      ∃ s, (proxyLoop verbose sched p i).outcome = .returned s := by
  induction sched with
  | nil =>
    intro p i hnone hlen
    simp only [List.length_nil] at hlen
    have hp : p = [] := List.length_eq_zero.mp (by omega)
    have hi : i = [] := List.length_eq_zero.mp (by omega)
    subst hp hi
    simp at hnone
  | cons step rest ih =>
    intro p i hnone hlen
    cases hsel : select step.pick p i with
    | none =>
      obtain ⟨hp, hi⟩ := select_none step.pick p i hsel
      subst hp hi
      simp at hnone
    | some got =>
      obtain ⟨s, e, p1, i1⟩ := got
      cases e with
      | none =>
        rw [proxyLoop_closed verbose step rest p i s p1 i1 hsel]
        exact ⟨s, rfl⟩
      | some b =>
        have hrest : ∃ t, (proxyLoop verbose rest p1 i1).outcome = .returned t := by
          apply ih
          · rcases select_spec step.pick p i s (some b) p1 i1 hsel with
              ⟨_, hp, hi⟩ | ⟨_, hi, hp⟩
            · subst hp hi
              simpa using hnone
            · subst hp hi
              simpa using hnone
          · rcases select_spec step.pick p i s (some b) p1 i1 hsel with
              ⟨_, hp, hi⟩ | ⟨_, hi, hp⟩
            · subst hp hi
              simp only [List.length_cons] at hlen
              omega
            · subst hp hi
              simp only [List.length_cons] at hlen
              omega
        cases s with
        | php =>
          rw [proxyLoop_php_data verbose step rest p i b p1 i1 hsel]
          exact hrest
        | ide =>
          rw [proxyLoop_ide_data verbose step rest p i b p1 i1 hsel]
          exact hrest

theorem proxyLoop_final (verbose : Bool) (sched extra : List Step) (s : Side) :
    ∀ p i : List Event, (proxyLoop verbose sched p i).outcome = .returned s →
      proxyLoop verbose (sched ++ extra) p i = proxyLoop verbose sched p i := by
  induction sched with
  | nil =>
    intro p i h
    simp [proxyLoop] at h
  | cons step rest ih =>
    intro p i h
    rw [List.cons_append]
    cases hsel : select step.pick p i with
    | none =>
      rw [proxyLoop_blocked verbose step rest p i hsel,
        proxyLoop_blocked verbose step _ p i hsel]
    | some got =>
      obtain ⟨t, e, p1, i1⟩ := got
      cases e with
      | none =>
        rw [proxyLoop_closed verbose step rest p i t p1 i1 hsel,
          proxyLoop_closed verbose step _ p i t p1 i1 hsel]
      | some b =>
        cases t with
        | php =>
          rw [proxyLoop_php_data verbose step rest p i b p1 i1 hsel] at h ⊢
          rw [proxyLoop_php_data verbose step _ p i b p1 i1 hsel, ih p1 i1 h]
        | ide =>
          rw [proxyLoop_ide_data verbose step rest p i b p1 i1 hsel] at h ⊢
          rw [proxyLoop_ide_data verbose step _ p i b p1 i1 hsel, ih p1 i1 h]

theorem proxyLoop_trace_closed (verbose : Bool) (sched : List Step) (s : Side) :
    ∀ p i : List Event, (proxyLoop verbose sched p i).outcome = .returned s →
      ∃ pre, (proxyLoop verbose sched p i).trace = pre ++ onClosed s := by
  induction sched with
  | nil =>
    intro p i h
    simp [proxyLoop] at h
  | cons step rest ih =>
    intro p i h
    cases hsel : select step.pick p i with
    | none =>
      rw [proxyLoop_blocked verbose step rest p i hsel] at h
      simp at h
    | some got =>
      obtain ⟨t, e, p1, i1⟩ := got
      cases e with
      | none =>
        rw [proxyLoop_closed verbose step rest p i t p1 i1 hsel] at h ⊢
        have hts : t = s := by simpa using h
        subst hts
        exact ⟨[], rfl⟩
      | some b =>
        cases t with
        | php =>
          rw [proxyLoop_php_data verbose step rest p i b p1 i1 hsel] at h ⊢
          obtain ⟨pre, hpre⟩ := ih p1 i1 h
          exact ⟨onPhpData verbose b step.writeResult ++ pre, by
            show _ ++ _ = _
            rw [hpre, List.append_assoc]⟩
        | ide =>
          rw [proxyLoop_ide_data verbose step rest p i b p1 i1 hsel] at h ⊢
          obtain ⟨pre, hpre⟩ := ih p1 i1 h
          exact ⟨onIdeData b step.writeResult ++ pre, by
            show _ ++ _ = _
            rw [hpre, List.append_assoc]⟩

theorem readLoop_reads_le (pre : List ReadResult) (r : ReadResult) (post : List ReadResult)
    (herr : r.err ≠ none) :
    ∀ b : List Byte, (readLoop (pre ++ r :: post) b).2 ≤ pre.length + 1 := by
  induction pre with
  | nil =>
    intro b
    obtain ⟨e, he⟩ := Option.ne_none_iff_exists'.mp herr
    simp [readLoop, he]
  | cons q qs ih =>
    intro b
    cases hq : q.err with
    | some e => simp [readLoop, hq]
    | none =>
      simp only [List.cons_append, readLoop, hq, List.length_cons]
      exact Nat.succ_le_succ (ih _)

theorem eventsOf_after_error (pre : List ReadResult) (r : ReadResult)
    (post : List ReadResult) (herr : r.err ≠ none) :
    eventsOf (pre ++ r :: post) = eventsOf (pre ++ [r]) := by
  induction pre with
  | nil =>
    obtain ⟨e, he⟩ := Option.ne_none_iff_exists'.mp herr
    simp [eventsOf, he]
  | cons q qs ih =>
    cases hq : q.err with
    | some e =>
      rw [List.cons_append, List.cons_append, eventsOf_cons_err q _ e hq,
        eventsOf_cons_err q _ e hq]
    | none =>
      rw [List.cons_append, List.cons_append, eventsOf_cons_ok q _ hq,
        eventsOf_cons_ok q _ hq, ih]

/-- C3. Closure termination: when a read of either stream returns an error and
the schedule gives every event its turn, `handleProxy` returns on a closed
event, the last things it does being the message of that closed event and the
closing of both streams; from then on no schedule makes it receive or do
anything more. The iteration that receives a closed event ends the loop with
the channels as they are at that moment. The read loop of a stream completes
no read after one that returned an error, and what comes after that read
changes nothing in what it delivers. -/
theorem closure_termination (verbose : Bool) (phpConn ideConn : Conn) (sched : List Step)
    (herr : (∃ r ∈ phpConn.reads, r.err ≠ none) ∨ (∃ r ∈ ideConn.reads, r.err ≠ none))
    (hlen : (chanFromConn phpConn).length + (chanFromConn ideConn).length ≤ sched.length) :
    (∃ s pre,
        (handleProxy verbose phpConn ideConn sched).outcome = .returned s
          ∧ (handleProxy verbose phpConn ideConn sched).trace
            = pre ++ onClosed s ++ [.close .php phpConn.closeErr, .close .ide ideConn.closeErr])
      ∧ (∀ extra, handleProxy verbose phpConn ideConn (sched ++ extra)
          = handleProxy verbose phpConn ideConn sched)
      ∧ (∀ (step : Step) (rest : List Step) (p i : List Event) (s : Side)
          (p1 i1 : List Event), select step.pick p i = some (s, none, p1, i1) →
          proxyLoop verbose (step :: rest) p i = ⟨.returned s, onClosed s, p1, i1⟩)
      ∧ (∀ (conn : Conn) (pre : List ReadResult) (r : ReadResult) (post : List ReadResult),
          conn.reads = pre ++ r :: post → r.err ≠ none →
          readsPerformed conn ≤ pre.length + 1
            ∧ chanFromConn conn = chanFromConn ⟨pre ++ [r], conn.closeErr⟩) := by
  have hnone : none ∈ chanFromConn phpConn ∨ none ∈ chanFromConn ideConn := by
    rcases herr with h | h
    · exact Or.inl ((chanFromConn_eq phpConn).symm ▸ (none_mem_eventsOf phpConn.reads).mpr h)
    · exact Or.inr ((chanFromConn_eq ideConn).symm ▸ (none_mem_eventsOf ideConn.reads).mpr h)
  obtain ⟨s, hs⟩ := proxyLoop_returns verbose sched _ _ hnone hlen
  obtain ⟨pre, hpre⟩ := proxyLoop_trace_closed verbose sched s _ _ hs
  refine ⟨⟨s, pre, ?_, ?_⟩, ?_, ?_, ?_⟩
  · rw [handleProxy_outcome]
    exact hs
  · rw [handleProxy_returned verbose phpConn ideConn sched s hs]
    show _ ++ _ = _
    rw [hpre]
    rfl
  · intro extra
    have hfinal := proxyLoop_final verbose sched extra s _ _ hs
    have hs2 : (proxyLoop verbose (sched ++ extra) (chanFromConn phpConn)
        (chanFromConn ideConn)).outcome = .returned s := by
      rw [hfinal]
      exact hs
    rw [handleProxy_returned verbose phpConn ideConn sched s hs,
      handleProxy_returned verbose phpConn ideConn (sched ++ extra) s hs2, hfinal]
  · intro step rest p i t p1 i1 hsel
    exact proxyLoop_closed verbose step rest p i t p1 i1 hsel
  · intro conn pre r post hreads hr
    constructor
    · unfold readsPerformed
      rw [hreads]
      exact readLoop_reads_le pre r post hr freshBuffer
    · rw [chanFromConn_eq, chanFromConn_eq, hreads]
      exact eventsOf_after_error pre r post hr

/-- Witness of C3: PHP sends `"GET /\r\n"` and ends while the IDE stays open; the
request is forwarded, the IDE stream is closed and `handleProxy` returns. -/
theorem closure_termination_witness :
    (handleProxy false requestConn silentConn [⟨.php, none⟩, ⟨.php, none⟩]).outcome
        = .returned .php
      ∧ writeCalls (handleProxy false requestConn silentConn
          [⟨.php, none⟩, ⟨.php, none⟩]).trace = [(.ide, [71, 69, 84, 32, 47, 13, 10])]
      ∧ closeCalls (handleProxy false requestConn silentConn
          [⟨.php, none⟩, ⟨.php, none⟩]).trace = [.php, .ide]
      ∧ readsPerformed requestConn = 2
      ∧ ∀ extra, handleProxy false requestConn silentConn
            ([⟨.php, none⟩, ⟨.php, none⟩] ++ extra)
          = handleProxy false requestConn silentConn [⟨.php, none⟩, ⟨.php, none⟩] :=
  ⟨by decide, by decide, by decide, by decide,
   (closure_termination false requestConn silentConn [⟨.php, none⟩, ⟨.php, none⟩]
      (Or.inl ⟨⟨[], some "EOF", by decide⟩, by simp [requestConn], by simp⟩)
      (by decide)).2.1⟩

/-! ## Passthrough -/

theorem writtenTo_append (dst : Side) (a b : List Effect) :
    writtenTo dst (a ++ b) = writtenTo dst a ++ writtenTo dst b := by
  simp [writtenTo, writeCalls_append]

theorem writtenTo_onPhpData (verbose : Bool) (b1 : List Byte) (w : Option Err) :
    writtenTo .ide (onPhpData verbose b1 w) = [b1]
      ∧ writtenTo .php (onPhpData verbose b1 w) = [] := by
  simp [writtenTo, writeCalls_onPhpData]

theorem writtenTo_onIdeData (b2 : List Byte) (w : Option Err) :
    writtenTo .php (onIdeData b2 w) = [b2] ∧ writtenTo .ide (onIdeData b2 w) = [] := by
  simp [writtenTo, writeCalls_onIdeData]

theorem writtenTo_onClosed (dst s : Side) : writtenTo dst (onClosed s) = [] := by
  simp [writtenTo, writeCalls_onClosed]

/-- What a run of the loop has received from each channel, and what it wrote. -/
theorem proxyLoop_consumed (verbose : Bool) (sched : List Step) :
    ∀ p i : List Event, ∃ cp ci : List Event,
      p = cp ++ (proxyLoop verbose sched p i).phpChan
        ∧ i = ci ++ (proxyLoop verbose sched p i).ideChan
        ∧ writtenTo .ide (proxyLoop verbose sched p i).trace = dataChunks cp
        ∧ writtenTo .php (proxyLoop verbose sched p i).trace = dataChunks ci
        ∧ ((proxyLoop verbose sched p i).outcome = .returned .php →
            ∃ cp1, cp = cp1 ++ [none])
        ∧ ((proxyLoop verbose sched p i).outcome = .returned .ide →
            ∃ ci1, ci = ci1 ++ [none]) := by
  induction sched with
  | nil =>
    intro p i
    exact ⟨[], [], rfl, rfl, rfl, rfl, by simp [proxyLoop], by simp [proxyLoop]⟩
  | cons step rest ih =>
    intro p i
    cases hsel : select step.pick p i with
    | none =>
      rw [proxyLoop_blocked verbose step rest p i hsel]
      exact ⟨[], [], rfl, rfl, rfl, rfl, by simp, by simp⟩
    | some got =>
      obtain ⟨s, e, p1, i1⟩ := got
      rcases select_spec step.pick p i s e p1 i1 hsel with ⟨hs, hp, hi⟩ | ⟨hs, hi, hp⟩
      · subst hs hp hi
        cases e with
        | none =>
          rw [proxyLoop_closed verbose step rest _ _ .php p1 i1 hsel]
          exact ⟨[none], [], rfl, rfl, rfl, rfl, fun _ => ⟨[], rfl⟩, by simp⟩
        | some b =>
          rw [proxyLoop_php_data verbose step rest _ _ b p1 i1 hsel]
          obtain ⟨cp, ci, h1, h2, h3, h4, h5, h6⟩ := ih p1 i1
          refine ⟨some b :: cp, ci, ?_, h2, ?_, ?_, ?_, h6⟩
          · show some b :: p1 = some b :: cp ++ _
            rw [List.cons_append, ← h1]
          · show writtenTo .ide (_ ++ _) = _
            rw [writtenTo_append, (writtenTo_onPhpData verbose b _).1, h3]
            rfl
          · show writtenTo .php (_ ++ _) = _
            rw [writtenTo_append, (writtenTo_onPhpData verbose b _).2, h4]
            rfl
          · intro h
            obtain ⟨cp1, hcp1⟩ := h5 h
            exact ⟨some b :: cp1, by rw [hcp1]; rfl⟩
      · subst hs hp hi
        cases e with
        | none =>
          rw [proxyLoop_closed verbose step rest _ _ .ide p1 i1 hsel]
          exact ⟨[], [none], rfl, rfl, rfl, rfl, by simp, fun _ => ⟨[], rfl⟩⟩
        | some b =>
          rw [proxyLoop_ide_data verbose step rest _ _ b p1 i1 hsel]
          obtain ⟨cp, ci, h1, h2, h3, h4, h5, h6⟩ := ih p1 i1
          refine ⟨cp, some b :: ci, h1, ?_, ?_, ?_, h5, ?_⟩
          · show some b :: i1 = some b :: ci ++ _
            rw [List.cons_append, ← h2]
          · show writtenTo .ide (_ ++ _) = _
            rw [writtenTo_append, (writtenTo_onIdeData b _).2, h3]
            rfl
          · show writtenTo .php (_ ++ _) = _
            rw [writtenTo_append, (writtenTo_onIdeData b _).1, h4]
            rfl
          · intro h
            obtain ⟨ci1, hci1⟩ := h6 h
            exact ⟨some b :: ci1, by rw [hci1]; rfl⟩

theorem eventsOf_none_last (reads : List ReadResult) (a rest : List Event)
    (h : eventsOf reads = a ++ none :: rest) : rest = [] := by
  by_contra hne
  have hmem : none ∈ eventsOf reads := by
    rw [h]
    simp
  have hlast := getLast_eventsOf reads hmem
  have hcount := count_none_eventsOf reads
  have hsplit : a ++ none :: rest = (a ++ [none]) ++ rest := by simp
  rw [h] at hcount
  rw [h, hsplit, List.getLast?_append_of_ne_nil _ hne] at hlast
  have hrest : rest.getLast? = some none := hlast
  have hin : none ∈ rest := List.mem_of_getLast?_eq_some hrest
  have hpos : 0 < rest.count none := List.count_pos_iff.mpr hin
  rw [List.count_append, List.count_cons_self] at hcount
  omega

theorem writtenTo_handleProxy (verbose : Bool) (phpConn ideConn : Conn) (sched : List Step)
    (dst : Side) :
    writtenTo dst (handleProxy verbose phpConn ideConn sched).trace
      = writtenTo dst
          (proxyLoop verbose sched (chanFromConn phpConn) (chanFromConn ideConn)).trace := by
  unfold handleProxy
  cases h : (proxyLoop verbose sched (chanFromConn phpConn) (chanFromConn ideConn)).outcome <;>
    simp [h, writtenTo, writeCalls_append, deferredCloses, writeCalls]

theorem flatten_dataChunks_chanFromConn (conn : Conn) :
    (dataChunks (chanFromConn conn)).flatten = bytesRead conn := by
  rw [chanFromConn_eq]
  exact flatten_dataChunks_eventsOf conn.reads

theorem flatten_dataChunks_initial (conn : Conn) (c rem : List Event)
    (h : chanFromConn conn = c ++ rem) : (dataChunks c).flatten <+: bytesRead conn := by
  refine ⟨(dataChunks rem).flatten, ?_⟩
  rw [← flatten_dataChunks_chanFromConn, h, dataChunks_append, List.flatten_append]

theorem flatten_dataChunks_closed (conn : Conn) (c1 rem : List Event)
    (h : chanFromConn conn = (c1 ++ [none]) ++ rem) :
    (dataChunks (c1 ++ [none])).flatten = bytesRead conn := by
  have hrem : rem = [] := by
    apply eventsOf_none_last conn.reads c1 rem
    rw [← chanFromConn_eq, h]
    simp
  rw [← flatten_dataChunks_chanFromConn, h, hrem, List.append_nil]

/-- C1, as the code has it. Passthrough in both directions: under every schedule
the chunks `handleProxy` writes to a stream, concatenated, are an initial
segment of the bytes read from the opposite stream, in the order they were read;
they are all of those bytes whenever `handleProxy` returns on the closed event
of the stream they were read from. -/
theorem passthrough (verbose : Bool) (phpConn ideConn : Conn) (sched : List Step) :
    (writtenTo .ide (handleProxy verbose phpConn ideConn sched).trace).flatten
        <+: bytesRead phpConn
      ∧ (writtenTo .php (handleProxy verbose phpConn ideConn sched).trace).flatten
        <+: bytesRead ideConn
      ∧ ((handleProxy verbose phpConn ideConn sched).outcome = .returned .php →
          (writtenTo .ide (handleProxy verbose phpConn ideConn sched).trace).flatten
            = bytesRead phpConn)
      ∧ ((handleProxy verbose phpConn ideConn sched).outcome = .returned .ide →
          (writtenTo .php (handleProxy verbose phpConn ideConn sched).trace).flatten
            = bytesRead ideConn) := by
  obtain ⟨cp, ci, h1, h2, h3, h4, h5, h6⟩ :=
    proxyLoop_consumed verbose sched (chanFromConn phpConn) (chanFromConn ideConn)
  rw [writtenTo_handleProxy, writtenTo_handleProxy, handleProxy_outcome, h3, h4]
  refine ⟨flatten_dataChunks_initial phpConn cp _ h1,
    flatten_dataChunks_initial ideConn ci _ h2, ?_, ?_⟩
  · intro h
    obtain ⟨cp1, hcp1⟩ := h5 h
    rw [hcp1] at h1 ⊢
    exact flatten_dataChunks_closed phpConn cp1 _ h1
  · intro h
    obtain ⟨ci1, hci1⟩ := h6 h
    rw [hci1] at h2 ⊢
    exact flatten_dataChunks_closed ideConn ci1 _ h2

/-- Witness of C1: PHP sends `"GET /\r\n"` and ends; `handleProxy` returns on the
closed event of PHP and the IDE has been written exactly `"GET /\r\n"`. -/
theorem passthrough_witness :
    (handleProxy false requestConn silentConn [⟨.php, none⟩, ⟨.php, none⟩]).outcome
        = .returned .php
      ∧ bytesRead requestConn = [71, 69, 84, 32, 47, 13, 10]
      ∧ (writtenTo .ide
          (handleProxy false requestConn silentConn [⟨.php, none⟩, ⟨.php, none⟩]).trace).flatten
        = bytesRead requestConn :=
  ⟨by decide, by decide,
   (passthrough false requestConn silentConn [⟨.php, none⟩, ⟨.php, none⟩]).2.2.1 (by decide)⟩

/-- C1 as stated fails: PHP sends `"GET /\r\n"` and the IDE hangs up; when the
`select` receives the closed event of the IDE first, `handleProxy` returns, under
whatever schedule follows, without having written any of the seven bytes read
from PHP to the IDE. -/
theorem passthrough_lost_on_other_close :
    bytesRead requestConn = [71, 69, 84, 32, 47, 13, 10]
      ∧ (∀ rest : List Step,
          (handleProxy false requestConn hangupConn (⟨.ide, none⟩ :: rest)).outcome
              = .returned .ide
            ∧ (writtenTo .ide
                (handleProxy false requestConn hangupConn (⟨.ide, none⟩ :: rest)).trace).flatten
              = [])
      ∧ ¬ (∀ (sched : List Step),
            (writtenTo .ide (handleProxy false requestConn hangupConn sched).trace).flatten
              = bytesRead requestConn) := by
  have hrun : ∀ rest : List Step,
      (handleProxy false requestConn hangupConn (⟨.ide, none⟩ :: rest)).outcome
          = .returned .ide
        ∧ (writtenTo .ide
            (handleProxy false requestConn hangupConn (⟨.ide, none⟩ :: rest)).trace).flatten
          = [] := by
    intro rest
    have hp : chanFromConn requestConn = [some [71, 69, 84, 32, 47, 13, 10], none] := by
      decide
    have hi : chanFromConn hangupConn = [none] := by decide
    have hloop := proxyLoop_closed false ⟨.ide, none⟩ rest (chanFromConn requestConn)
      (chanFromConn hangupConn) .ide (chanFromConn requestConn) []
      (by rw [hi]; exact select_ide_ready none _ [])
    rw [writtenTo_handleProxy, handleProxy_outcome, hloop]
    exact ⟨rfl, rfl⟩
  refine ⟨by decide, hrun, ?_⟩
  intro h
  have h1 := h [⟨.ide, none⟩]
  rw [(hrun []).2] at h1
  exact absurd h1 (by decide)

end XdbgPrxy
